import Mathlib

/-!
Verification of the crossword CSP solver in `src/Optimization/crossword/generate.py`
(class `CrosswordCreator`). The Python code is shallowly embedded: Python sets and
dicts are modelled as lists with a fixed iteration order, Python strings as lists of
characters, and the mutable `self.domains` store as an explicitly threaded function
from variables to candidate-word lists. A Python assignment value can be either a
string or (after the backtracking bug fires) a list of one-character strings; the
type `PyVal` keeps the two apart exactly as Python `==` does.

The classes `Variable` and `Crossword` live in `crossword.py`, which is not part of
the sources; they are modelled from the specification (section 3 and section 4.1 of
spec.md): a variable is (row, column, length, direction) and a crossword provides
the variable list, the word list and the overlap relation, with `neighbors`
returning the variables that have an overlap entry with the argument.
-/

/-- Direction of a word slot. Modelled from the spec: `Variable.ACROSS` /
`Variable.DOWN` of the missing `crossword.py`. -/
inductive Direction where
  | across
  | down
deriving DecidableEq

/-- Modelled from the spec: a `Variable` of the missing `crossword.py` — starting
row, starting column, length and orientation (spec section 3, "Variable"). -/
structure Var where
  i : Nat
  j : Nat
  length : Nat
  dir : Direction
deriving DecidableEq

/-- A Python string, as its list of characters. -/
abbrev Word := List Char

/-- A Python value stored in an assignment: either a string or a list of
one-character strings (which is what line 330 of `generate.py` produces).
Python `==` never identifies a string with a list, matching constructor
disjointness here. -/
inductive PyVal where
  | vstr (w : List Char)
  | vlist (l : List Char)
deriving DecidableEq

/-- The character sequence of a value: `len` and indexing act on this in Python. -/
def PyVal.chars : PyVal → List Char
  | .vstr w => w
  | .vlist l => l

/-- Python indexing `w[n]`; all uses in the source are in bounds for well-formed
puzzles, so the default character is never observed there. -/
def pyIdx (w : List Char) (n : Nat) : Char := w.getD n (Char.ofNat 0)

/-- Modelled from the spec: the `Crossword` of the missing `crossword.py` — the
variable set (as a list fixing the Python set iteration order), the dictionary
and the overlap relation on ordered pairs (spec section 3, "Overlap relation"). -/
structure Crossword where
  vars : List Var
  words : List Word
  overlaps : Var → Var → Option (Nat × Nat)

/-- Modelled from the spec: `Crossword.neighbors(var)` — the variables other than
`var` that have an overlap entry with it. -/
def Crossword.neighbors (cw : Crossword) (var : Var) : List Var :=
  cw.vars.filter (fun v => (v != var) && (cw.overlaps v var).isSome)

/-- The domain store `self.domains`: current candidate words of each variable. -/
abbrev Dom := Var → List Word

/-- Domain-store initialization in `CrosswordCreator.__init__`: every variable's
domain is a copy of the full word list. -/
def initDomains (cw : Crossword) : Dom := fun _ => cw.words

/-- An assignment: a Python dict from variables to values, as an association list
in insertion order. -/
abbrev Assign := List (Var × PyVal)

/-- The key list of an assignment (Python `assignment.keys()`, insertion order). -/
def akeys (a : Assign) : List Var := a.map (fun p => p.1)

/-- Python dict store `assignment[k] = v`: replace in place if the key is present
(keeping its position), else append. -/
def aupdate (a : Assign) (k : Var) (v : PyVal) : Assign :=
  if (akeys a).contains k then a.map (fun p => if p.1 == k then (k, v) else p)
  else a ++ [(k, v)]

/-- Python dict lookup `assignment[k]`; the default is never observed because every
lookup in the source is at a present key. -/
def alookupD (a : Assign) (k : Var) : PyVal :=
  ((a.find? (fun p => p.1 == k)).map (fun p => p.2)).getD (PyVal.vstr [])

/-- Lines 96-105: `enforce_node_consistency` removes from each variable's domain
every word whose length differs from the variable's length. -/
def enforce_node_consistency (cw : Crossword) (dom : Dom) : Dom :=
  fun v => if v ∈ cw.vars then (dom v).filter (fun w => w.length == v.length)
           else dom v

/-- Support test inside `revise`: word `w1` of `x` has some partner `w2` in the
domain of `y` agreeing at the overlap offsets. -/
def supported (o : Nat × Nat) (domY : List Word) (w1 : Word) : Bool :=
  domY.any (fun w2 => pyIdx w1 o.1 == pyIdx w2 o.2)

/-- Lines 107-135: `revise(x, y)` removes from `domains[x]` every word with no
support in `domains[y]`, returning whether anything was removed together with
the updated store. -/
def revise (cw : Crossword) (dom : Dom) (x y : Var) : Bool × Dom :=
  match cw.overlaps x y with
  | none => (false, dom)
  | some o =>
      let keep := (dom x).filter (supported o (dom y))
      let made := (dom x).any (fun w1 => !supported o (dom y) w1)
      (made, fun v => if v = x then keep else dom v)

/-- Worklist loop of `ac3` (lines 155-164), processing arcs in FIFO order; on a
revision it fails if the revised domain emptied, else re-enqueues `(z, x)` for
every neighbor `z ≠ y` of `x`. The fuel argument is an artifact of the
embedding; `none` means fuel ran out (the Python loop always terminates). -/
def ac3Loop (cw : Crossword) : Nat → List (Var × Var) → Dom → Option (Bool × Dom)
  | 0, _, _ => none
  | _ + 1, [], dom => some (true, dom)
  | fuel + 1, (x, y) :: rest, dom =>
      let r := revise cw dom x y
      if r.1 then
        if (r.2 x).length == 0 then some (false, r.2)
        else ac3Loop cw fuel
          (rest ++ ((cw.neighbors x).filter (fun z => z != y)).map (fun z => (z, x))) r.2
      else ac3Loop cw fuel rest r.2

/-- Lines 146-151: the default arc list — `(var, neighbour)` for every variable and
each of its neighbors, skipping pairs already enqueued. -/
def initialQueue (cw : Crossword) : List (Var × Var) :=
  cw.vars.foldl
    (fun q var =>
      (cw.neighbors var).foldl
        (fun q' nb => if (var, nb) ∈ q' then q' else q' ++ [(var, nb)]) q)
    []

/-- Lines 137-164: `ac3` with the default (unsupplied) arc list. -/
def ac3 (cw : Crossword) (fuel : Nat) (dom : Dom) : Option (Bool × Dom) :=
  ac3Loop cw fuel (initialQueue cw) dom

/-- Lines 166-174: `assignment_complete` — the assignment has as many entries as
the puzzle has variables. -/
def assignment_complete (cw : Crossword) (a : Assign) : Bool :=
  a.length == cw.vars.length

/-- Duplicate-value check of `consistent` (lines 181-189): some value reappears
later in the value list. -/
def distinctVals : List PyVal → Bool
  | [] => true
  | v :: rest => !rest.contains v && distinctVals rest

/-- Overlap-agreement check of `consistent` (lines 196-206) over the ordered key
pairs `i < j`. -/
def overlapsOk (cw : Crossword) (a : Assign) : List Var → Bool
  | [] => true
  | k :: rest =>
      rest.all (fun k1 =>
        match cw.overlaps k k1 with
        | none => true
        | some o =>
            pyIdx (alookupD a k).chars o.1 == pyIdx (alookupD a k1).chars o.2)
      && overlapsOk cw a rest

/-- Lines 176-208: `consistent` — all values pairwise distinct, every value of the
correct length for its variable, and overlapping assigned pairs agreeing at the
overlap offsets. -/
def consistent (cw : Crossword) (a : Assign) : Bool :=
  distinctVals (a.map (fun p => p.2))
  && (akeys a).all (fun k => k.length == (alookupD a k).chars.length)
  && overlapsOk cw a (akeys a)

/-- Lines 219-224: the neighbors of `var` that are not yet assigned. -/
def unassignedNeighbors (cw : Crossword) (a : Assign) (var : Var) : List Var :=
  (cw.neighbors var).filter (fun nb => !(akeys a).contains nb)

/-- Lines 226-240: the elimination count of candidate `val` — one for a direct
collision with the neighbor's domain, plus one for each differing neighbor value
conflicting at the overlap. The `none` overlap branch is unreachable for
well-formed puzzles (Python would raise there). -/
def elimCount (cw : Crossword) (dom : Dom) (a : Assign) (var : Var) (val : Word) : Nat :=
  (unassignedNeighbors cw a var).foldl
    (fun n nb =>
      let n1 := if val ∈ dom nb then n + 1 else n
      match cw.overlaps var nb with
      | some o =>
          n1 + ((dom nb).filter
            (fun v1 => !(v1 == val) && !(pyIdx val o.1 == pyIdx v1 o.2))).length
      | none => n1)
    0

/-- Minimum of a list of counts where `none` plays the role of `float('inf')`. -/
def optMin : Option Nat → Option Nat → Option Nat
  | some a, some b => some (min a b)
  | some a, none => some a
  | none, b => b

/-- Python `min` over the count list (with `none` as infinity). -/
def minCount (l : List (Option Nat)) : Option Nat := l.foldl optMin none

/-- Lines 242-253: the selection loop of `order_domain_values` — repeatedly append
all candidates of minimal count and mark them with infinity (`none`). -/
def lcvLoop : Nat → List (Word × Option Nat) → List Word → List Word
  | 0, _, acc => acc
  | fuel + 1, pairs, acc =>
      if acc.length == pairs.length then acc
      else
        let m := minCount (pairs.map (fun p => p.2))
        let acc' := acc ++ (pairs.filter (fun p => p.2 == m)).map (fun p => p.1)
        let pairs' := pairs.map (fun p => if p.2 == m then (p.1, none) else p)
        lcvLoop fuel pairs' acc'

/-- Lines 210-253: `order_domain_values` — the candidates of `var` in ascending
order of elimination count. -/
def order_domain_values (cw : Crossword) (dom : Dom) (var : Var) (a : Assign) : List Word :=
  let values := dom var
  let pairs := values.map (fun v => (v, some (elimCount cw dom a var v)))
  lcvLoop values.length pairs []

/-- Lines 275-278: insertion into the `number_of_options` dict keyed by domain
size; an existing key is overwritten in place, a new key is appended. -/
def updateOrAppend (m : List (Nat × Var)) (k : Nat) (v : Var) : List (Nat × Var) :=
  if m.any (fun p => p.1 == k) then m.map (fun p => if p.1 == k then (k, v) else p)
  else m ++ [(k, v)]

/-- Lines 275-278: the `number_of_options` dict — domain size to (last) variable
of that size. -/
def numberOfOptions (dom : Dom) (unassigned : List Var) : List (Nat × Var) :=
  unassigned.foldl (fun m var => updateOrAppend m (dom var).length var) []

/-- Python `sorted` over the keys of `number_of_options`, modelled by stable
insertion sort. -/
def sortNat (l : List Nat) : List Nat := List.insertionSort (· ≤ ·) l

/-- Lookup in `number_of_options`; the default is never observed since every key
looked up is present. -/
def getVarD (m : List (Nat × Var)) (k : Nat) : Var :=
  ((m.find? (fun p => p.1 == k)).map (fun p => p.2)).getD ⟨0, 0, 0, Direction.across⟩

/-- Lines 282-289: the tail of `sorted_variables` — keep walking the sorted key
list while a key equals its predecessor (dead for distinct dict keys). -/
def tiedRest (m : List (Nat × Var)) (prev : Nat) : List Nat → List Var
  | [] => []
  | k :: rest => if k == prev then getVarD m k :: tiedRest m k rest else []

/-- Lines 280-289: `sorted_variables`, built from the sorted key list. -/
def sortedVariables (m : List (Nat × Var)) (options : List Nat) : List Var :=
  match options with
  | [] => []
  | k :: rest => getVarD m k :: tiedRest m k rest

/-- Lines 255-304: `select_unassigned_variable`. Returns `none` exactly where the
Python function falls off the end and implicitly returns `None`. -/
def select_unassigned_variable (cw : Crossword) (dom : Dom) (a : Assign) : Option Var :=
  let unassigned := cw.vars.filter (fun v => !(akeys a).contains v)
  let m := numberOfOptions dom unassigned
  let options := sortNat (m.map (fun p => p.1))
  let sv := sortedVariables m options
  if sv.length ≠ 1 then
    let maxi := sv.foldl (fun mx v => max mx (cw.neighbors v).length) 0
    sv.find? (fun v => (cw.neighbors v).length == maxi)
  else sv.head?

/-- The value written at line 330 in place of deleting the key: the list
comprehension `[val for val in assignment[var] if val != value]` over the
characters of the old value, each compared (as a one-character string) with the
whole candidate word. -/
def pyFilter (v : PyVal) (value : Word) : PyVal :=
  PyVal.vlist (v.chars.filter (fun c => !([c] == value)))

/-- Lines 321-330: the candidate loop of `backtrack`, parameterized by the
recursive call `bt`. The domain store is threaded through untouched, mirroring
that these methods only read `self.domains`. -/
def btLoopF (cw : Crossword) (bt : Assign → Dom → Option Assign × Assign × Dom)
    (var : Var) : List Word → Assign → Dom → Option Assign × Assign × Dom
  | [], a, d => (none, a, d)
  | value :: rest, a, d =>
      let acopy := aupdate a var (PyVal.vstr value)
      let step :=
        if consistent cw acopy then bt (aupdate a var (PyVal.vstr value)) d
        else (none, a, d)
      match step with
      | (some r, a2, d2) => (some r, a2, d2)
      | (none, a2, d2) =>
          let a3 :=
            if (akeys a2).contains var then aupdate a2 var (pyFilter (alookupD a2 var) value)
            else a2
          btLoopF cw bt var rest a3 d2

/-- Lines 306-331: `backtrack`, with fuel for the recursion depth (the Python
recursion is bounded by the number of variables; fuel exhaustion never occurs in
the uses below). The `none` selection branch is unreachable from `solve`
(Python would raise a `KeyError` there). -/
def backtrack (cw : Crossword) : Nat → Assign → Dom → Option Assign × Assign × Dom
  | 0, a, d => (none, a, d)
  | fuel + 1, a, d =>
      if assignment_complete cw a then (some a, a, d)
      else
        match select_unassigned_variable cw d a with
        | none => (none, a, d)
        | some var => btLoopF cw (backtrack cw fuel) var (order_domain_values cw d var a) a d

/-- Lines 88-94: `solve` — node consistency, then `ac3` with its Boolean result
discarded, then `backtrack` from the empty assignment. Outer `none` only on fuel
exhaustion inside `ac3`. -/
def solve (cw : Crossword) (fuel : Nat) : Option (Option Assign × Assign × Dom) :=
  match ac3 cw fuel (enforce_node_consistency cw (initDomains cw)) with
  | none => none
  | some (_, d2) => some (backtrack cw fuel [] d2)

/-- The assignment (or failure) produced by `solve`. -/
def solveResult (cw : Crossword) (fuel : Nat) : Option (Option Assign) :=
  (solve cw fuel).map (fun r => r.1)

/-- The domain store produced by a successful or failed `ac3` run (used to name
the post-AC3 domains in concrete statements). -/
def ac3DomOf (cw : Crossword) (fuel : Nat) (dom : Dom) : Dom :=
  match ac3 cw fuel dom with
  | some p => p.2
  | none => dom

/-- Decidable overlap-symmetry check over the puzzle's variables. -/
def symmOnB (cw : Crossword) : Bool :=
  cw.vars.all (fun x => cw.vars.all (fun y =>
    match cw.overlaps x y with
    | some o => cw.overlaps y x == some (o.2, o.1)
    | none => true))

/-- Overlap symmetry on the puzzle's variables: the geometric overlap relation of
the spec records the same shared cell from both sides with the offsets swapped
(spec section 3, "Overlap relation"). -/
def SymmOn (cw : Crossword) : Prop := symmOnB cw = true

instance (cw : Crossword) : Decidable (SymmOn cw) :=
  decidable_of_iff (symmOnB cw = true) Iff.rfl


/-- Across variable of length 3 at row 0, column 0 (cells (0,0)-(0,2)). -/
def vA3 : Var := ⟨0, 0, 3, Direction.across⟩

/-- Down variable of length 3 at row 0, column 2 (cells (0,2)-(2,2)). -/
def vB3 : Var := ⟨0, 2, 3, Direction.down⟩

/-- Across variable of length 3 at row 2, column 0 (cells (2,0)-(2,2)). -/
def vC3 : Var := ⟨2, 0, 3, Direction.across⟩

/-- Geometric overlaps of the three-variable layout: `vA3` meets `vB3` at cell
(0,2) (offsets 2 and 0), `vB3` meets `vC3` at cell (2,2) (offsets 2 and 2). -/
def overlaps3 : Var → Var → Option (Nat × Nat) := fun x y =>
  if x = vA3 ∧ y = vB3 then some (2, 0)
  else if x = vB3 ∧ y = vA3 then some (0, 2)
  else if x = vB3 ∧ y = vC3 then some (2, 2)
  else if x = vC3 ∧ y = vB3 then some (2, 2)
  else none

/-- Word "aaa". -/
def wAAA : Word := ['a', 'a', 'a']

/-- Word "aab". -/
def wAAB : Word := ['a', 'a', 'b']

/-- Word "aba". -/
def wABA : Word := ['a', 'b', 'a']

/-- Word "baa". -/
def wBAA : Word := ['b', 'a', 'a']

/-- Puzzle for claim C1: the three-variable layout with words aaa, aab, aba. -/
def cwS : Crossword := ⟨[vA3, vB3, vC3], [wAAA, wAAB, wABA], overlaps3⟩

/-- Puzzle for claim C3: same layout, variable order vC3, vA3, vB3, words aaa,
aab, baa. -/
def cwT : Crossword := ⟨[vC3, vA3, vB3], [wAAA, wAAB, wBAA], overlaps3⟩

/-- Puzzle for claim C4: the three-variable layout with an empty word list. -/
def cwE : Crossword := ⟨[vA3, vB3, vC3], [], overlaps3⟩

/-- Puzzle for claim C5: same layout, variable order vB3, vA3, vC3. -/
def cwU : Crossword := ⟨[vB3, vA3, vC3], [wAAA, wAAB, wBAA], overlaps3⟩

/-- Across variable of length 2 at row 0, column 0 (cells (0,0)-(0,1)). -/
def vA2 : Var := ⟨0, 0, 2, Direction.across⟩

/-- Down variable of length 2 at row 0, column 1 (cells (0,1)-(1,1)). -/
def vB2 : Var := ⟨0, 1, 2, Direction.down⟩

/-- Geometric overlaps of the two-variable layout: shared cell (0,1), offset 1 in
`vA2` and 0 in `vB2`. -/
def overlaps2 : Var → Var → Option (Nat × Nat) := fun x y =>
  if x = vA2 ∧ y = vB2 then some (1, 0)
  else if x = vB2 ∧ y = vA2 then some (0, 1)
  else none

/-- Puzzle for claim C2: the two-variable layout with words ab, cb. -/
def cwR : Crossword := ⟨[vA2, vB2], [['a', 'b'], ['c', 'b']], overlaps2⟩

/-- Pairwise distinctness of a list of character strings. -/
def distinctWords : List (List Char) → Bool
  | [] => true
  | w :: rest => !rest.contains w && distinctWords rest

/-- Overlap agreement over all pairs of entries of an assignment. -/
def specOverlapsOk (cw : Crossword) : Assign → Bool
  | [] => true
  | p :: rest =>
      rest.all (fun q =>
        match cw.overlaps p.1 q.1 with
        | none => true
        | some o => pyIdx p.2.chars o.1 == pyIdx q.2.chars o.2)
      && specOverlapsOk cw rest

/-- Modelled from the spec (section 3, "Assignment", and claim C1): a complete,
valid assignment has exactly one entry per puzzle variable, every value is a
string (not a character list) whose length equals its variable's length, all
words are pairwise distinct, and overlapping entries agree at the offsets. -/
def specValidAssignment (cw : Crossword) (a : Assign) : Bool :=
  cw.vars.all (fun v => (a.filter (fun p => p.1 == v)).length == 1)
  && a.all (fun p => cw.vars.contains p.1)
  && a.all (fun p =>
      match p.2 with
      | PyVal.vstr w => w.length == p.1.length
      | PyVal.vlist _ => false)
  && distinctWords (a.map (fun p => p.2.chars))
  && specOverlapsOk cw a

/-- Modelled from the spec (section 4.4 step 3 and claim C7): assigning `val` to
the selected variable eliminates neighbor value `val1` when the words collide
(distinctness) or the overlap characters disagree. -/
def claimEliminated (o : Nat × Nat) (val val1 : Word) : Bool :=
  (val1 == val) || !(pyIdx val o.1 == pyIdx val1 o.2)

/-- Modelled from the spec: the number of values candidate `val` would eliminate
from the domains of the unassigned neighbors of `var`. -/
def claimElimCount (cw : Crossword) (dom : Dom) (a : Assign) (var : Var) (val : Word) : Nat :=
  ((unassignedNeighbors cw a var).map (fun nb =>
    match cw.overlaps var nb with
    | some o => ((dom nb).filter (fun v1 => claimEliminated o val v1)).length
    | none => 0)).sum

/-- Arc support: every word of `x` has a partner in the domain of `y` agreeing at
the overlap offsets (trivially true for pairs without an overlap entry). -/
def SupportedArc (cw : Crossword) (dom : Dom) (x y : Var) : Prop :=
  ∀ o1 o2 : Nat, cw.overlaps x y = some (o1, o2) →
    ∀ w ∈ dom x, ∃ w2 ∈ dom y, pyIdx w o1 = pyIdx w2 o2

/-- Queue well-formedness: every queued arc joins two distinct puzzle variables. -/
def QueueWF (cw : Crossword) (q : List (Var × Var)) : Prop :=
  ∀ p ∈ q, p.1 ∈ cw.vars ∧ p.2 ∈ cw.vars ∧ p.1 ≠ p.2

/-- The AC-3 worklist invariant: every overlapping ordered pair of distinct
puzzle variables is either still queued or already supported. -/
def ArcInv (cw : Crossword) (q : List (Var × Var)) (dom : Dom) : Prop :=
  ∀ x ∈ cw.vars, ∀ y ∈ cw.vars, x ≠ y → (cw.overlaps x y).isSome →
    (x, y) ∈ q ∨ SupportedArc cw dom x y

theorem SymmOn.apply {cw : Crossword} (h : SymmOn cw) {x y : Var} {o1 o2 : Nat}
    (hx : x ∈ cw.vars) (hy : y ∈ cw.vars) (ho : cw.overlaps x y = some (o1, o2)) :
    cw.overlaps y x = some (o2, o1) := by
  have hx' := List.all_eq_true.mp h x hx
  have hy' := List.all_eq_true.mp hx' y hy
  rw [ho] at hy'
  simpa using hy'



/-- Claim C1: every non-None result of `backtrack` (hence of `solve`) is a
complete valid assignment. Refuted on puzzle `cwS`: `solve` returns a non-None
result in which `vC3` is bound to a character list (not a word string) whose
characters spell the same word assigned to `vB3`, so the result violates both
the words-are-strings condition and pairwise distinctness. -/
theorem c1_solve_returns_invalid_result :
    solveResult cwS 30 =
      some (some [(vA3, PyVal.vstr wABA), (vC3, PyVal.vlist wAAB), (vB3, PyVal.vstr wAAB)])
    ∧ specValidAssignment cwS
        [(vA3, PyVal.vstr wABA), (vC3, PyVal.vlist wAAB), (vB3, PyVal.vstr wAAB)] = false := by
  constructor
  · decide
  · decide

/-- Claim C2: on failure, `backtrack` removes the tentatively extended variable
and returns with the assignment as it was at entry. Refuted on puzzle `cwR`:
`backtrack` started from the empty assignment returns failure, yet the
assignment now maps `vB2` to the character list of "cb" — line 330 replaces the
value by a character list instead of deleting the key. -/
theorem c2_backtrack_fails_but_mutates_assignment :
    (backtrack cwR 10 [] (enforce_node_consistency cwR (initDomains cwR))).1 = none
    ∧ (backtrack cwR 10 [] (enforce_node_consistency cwR (initDomains cwR))).2.1
        = [(vB2, PyVal.vlist ['c', 'b'])] := by
  constructor
  · decide
  · decide

/-- Claim C3: if the post-AC3 domains admit a satisfying assignment, `backtrack`
finds one. Refuted on puzzle `cwT`: AC-3 succeeds leaving all three words in
every domain, the assignment vC3=aaa, vA3=aab, vB3=baa drawn from those domains
is valid, yet `backtrack` from the empty assignment returns failure (the
character-list residue of a failed candidate keeps acting as a phantom
assignment that blocks the remaining search). -/
theorem c3_backtrack_misses_existing_solution :
    (ac3 cwT 30 (enforce_node_consistency cwT (initDomains cwT))).map (fun p => p.1) = some true
    ∧ ac3DomOf cwT 30 (enforce_node_consistency cwT (initDomains cwT)) vA3 = [wAAA, wAAB, wBAA]
    ∧ ac3DomOf cwT 30 (enforce_node_consistency cwT (initDomains cwT)) vB3 = [wAAA, wAAB, wBAA]
    ∧ ac3DomOf cwT 30 (enforce_node_consistency cwT (initDomains cwT)) vC3 = [wAAA, wAAB, wBAA]
    ∧ specValidAssignment cwT
        [(vC3, PyVal.vstr wAAA), (vA3, PyVal.vstr wAAB), (vB3, PyVal.vstr wBAA)] = true
    ∧ (backtrack cwT 30 []
        (ac3DomOf cwT 30 (enforce_node_consistency cwT (initDomains cwT)))).1 = none := by
  refine ⟨?_, ?_, ?_, ?_, ?_, ?_⟩ <;> decide

/-- Claim C4: `ac3` reports failure when a domain is empty at entry, and search is
never entered with an empty domain. Refuted on puzzle `cwE` (empty word list):
node consistency leaves every domain empty, yet `ac3` returns success (the
emptiness test at line 158 runs only after a revision removed something), and
`solve` — which discards `ac3`'s Boolean — still invokes `backtrack`, whose
result is what `solve` returns. -/
theorem c4_ac3_succeeds_on_empty_domains :
    enforce_node_consistency cwE (initDomains cwE) vA3 = []
    ∧ enforce_node_consistency cwE (initDomains cwE) vB3 = []
    ∧ enforce_node_consistency cwE (initDomains cwE) vC3 = []
    ∧ (ac3 cwE 30 (enforce_node_consistency cwE (initDomains cwE))).map (fun p => p.1)
        = some true
    ∧ solveResult cwE 30 = some none := by
  refine ⟨?_, ?_, ?_, ?_, ?_⟩ <;> decide

/-- Claim C5: `select_unassigned_variable` breaks minimum-remaining-values ties by
maximum degree. Refuted on puzzle `cwU`: with the empty assignment all three
variables tie at domain size 3; `vB3` has two overlap-neighbors while `vC3` has
one, yet the function returns `vC3` — the `number_of_options` dict is keyed by
domain size, so tied variables overwrite each other and the degree tie-break
code is unreachable. -/
theorem c5_select_ignores_degree_tiebreak :
    (enforce_node_consistency cwU (initDomains cwU) vB3).length = 3
    ∧ (enforce_node_consistency cwU (initDomains cwU) vA3).length = 3
    ∧ (enforce_node_consistency cwU (initDomains cwU) vC3).length = 3
    ∧ (cwU.neighbors vB3).length = 2
    ∧ (cwU.neighbors vC3).length = 1
    ∧ select_unassigned_variable cwU (enforce_node_consistency cwU (initDomains cwU)) []
        = some vC3 := by
  refine ⟨?_, ?_, ?_, ?_, ?_, ?_⟩ <;> decide

/-- Claim C8: after node consistency on the freshly initialized domain store,
each variable's domain is exactly the dictionary words of the variable's
length. -/
theorem c8_node_consistency_postcondition (cw : Crossword) (v : Var) (hv : v ∈ cw.vars)
    (w : Word) :
    w ∈ enforce_node_consistency cw (initDomains cw) v ↔ w ∈ cw.words ∧ w.length = v.length := by
  unfold enforce_node_consistency initDomains
  rw [if_pos hv]
  simp [List.mem_filter]

/-- Witness for claim C8 at the concrete puzzle `cwS`, variable `vA3` and word
"aaa". -/
theorem c8_node_consistency_postcondition_witness :
    vA3 ∈ cwS.vars
    ∧ (wAAA ∈ enforce_node_consistency cwS (initDomains cwS) vA3
        ↔ wAAA ∈ cwS.words ∧ wAAA.length = vA3.length) :=
  ⟨by decide, c8_node_consistency_postcondition cwS vA3 (by decide) wAAA⟩

/-- The candidate loop preserves the threaded domain store whenever the recursive
call does. -/
theorem btLoopF_preserves_domains (cw : Crossword)
    (bt : Assign → Dom → Option Assign × Assign × Dom)
    (hbt : ∀ a d, (bt a d).2.2 = d) (var : Var) :
    ∀ (values : List Word) (a : Assign) (d : Dom), (btLoopF cw bt var values a d).2.2 = d := by
  intro values
  induction values with
  | nil => intro a d; rfl
  | cons value rest ih =>
      intro a d
      simp only [btLoopF]
      have hstep :
          ((if consistent cw (aupdate a var (PyVal.vstr value)) then
              bt (aupdate a var (PyVal.vstr value)) d
            else (none, a, d)) : Option Assign × Assign × Dom).2.2 = d := by
        split
        · exact hbt _ _
        · rfl
      split
      next r a2 d2 heq => rw [heq] at hstep; exact hstep
      next a2 d2 heq => rw [heq] at hstep; rw [← hstep]; exact ih _ _

/-- Claim C9: `backtrack` (and the pure validator `consistent`, embedded here as a
function with no state output at all) never mutates the domain store: the
threaded `self.domains` component of the result is exactly the store passed
in, for every fuel, assignment and store. -/
theorem c9_backtrack_never_mutates_domains (cw : Crossword) :
    ∀ (fuel : Nat) (a : Assign) (d : Dom), (backtrack cw fuel a d).2.2 = d := by
  intro fuel
  induction fuel with
  | zero => intro a d; rfl
  | succ n ih =>
      intro a d
      simp only [backtrack]
      split
      · rfl
      · split
        · rfl
        · exact btLoopF_preserves_domains cw (backtrack cw n) (fun a' d' => ih a' d') _ _ _ _

/-- Entries produced by `updateOrAppend` are old entries or the new pair. -/
theorem updateOrAppend_entry {P : Nat × Var → Prop} {m : List (Nat × Var)} {k : Nat} {v : Var}
    (hm : ∀ p ∈ m, P p) (hkv : P (k, v)) : ∀ p ∈ updateOrAppend m k v, P p := by
  intro p hp
  unfold updateOrAppend at hp
  split at hp
  · obtain ⟨q, hq, hqe⟩ := List.mem_map.mp hp
    by_cases h : (q.1 == k) = true
    · rw [if_pos h] at hqe; rw [← hqe]; exact hkv
    · rw [if_neg h] at hqe; rw [← hqe]; exact hm q hq
  · rcases List.mem_append.mp hp with h | h
    · exact hm p h
    · rw [List.mem_singleton.mp h]; exact hkv

/-- The key list after `updateOrAppend`: unchanged when the key was present,
extended by the key otherwise. -/
theorem updateOrAppend_keys (m : List (Nat × Var)) (k : Nat) (v : Var) :
    ((updateOrAppend m k v).map (fun p => p.1) = m.map (fun p => p.1)
      ∧ k ∈ m.map (fun p => p.1))
    ∨ ((updateOrAppend m k v).map (fun p => p.1) = m.map (fun p => p.1) ++ [k]
      ∧ k ∉ m.map (fun p => p.1)) := by
  unfold updateOrAppend
  split
  next h =>
    left
    obtain ⟨q, hq, hqk⟩ := List.any_eq_true.mp h
    constructor
    · clear h hq
      induction m with
      | nil => rfl
      | cons p rest ih =>
          simp only [List.map_cons, List.map]
          by_cases hp : (p.1 == k) = true
          · rw [if_pos hp]
            have hpk : p.1 = k := by simpa using hp
            rw [ih]
            simp [hpk]
          · rw [if_neg hp]
            rw [ih]
    · have : q.1 = k := by simpa using hqk
      rw [← this]
      exact List.mem_map.mpr ⟨q, hq, rfl⟩
  next h =>
    right
    refine ⟨by simp, ?_⟩
    intro hk
    obtain ⟨q, hq, hqk⟩ := List.mem_map.mp hk
    exact h (List.any_eq_true.mpr ⟨q, hq, by simpa using hqk⟩)

/-- The entries of the `number_of_options` dict record the domain size of their
variable. -/
theorem numberOfOptions_entry (dom : Dom) :
    ∀ (l : List Var) (m : List (Nat × Var)), (∀ p ∈ m, (dom p.2).length = p.1) →
      ∀ p ∈ l.foldl (fun m var => updateOrAppend m (dom var).length var) m,
        (dom p.2).length = p.1 := by
  intro l
  induction l with
  | nil => intro m hm; exact hm
  | cons x l ih =>
      intro m hm
      exact ih _ (updateOrAppend_entry hm rfl)

/-- The keys of the `number_of_options` dict are pairwise distinct. -/
theorem numberOfOptions_nodup (dom : Dom) :
    ∀ (l : List Var) (m : List (Nat × Var)), (m.map (fun p => p.1)).Nodup →
      ((l.foldl (fun m var => updateOrAppend m (dom var).length var) m).map
        (fun p => p.1)).Nodup := by
  intro l
  induction l with
  | nil => intro m hm; exact hm
  | cons x l ih =>
      intro m hm
      refine ih _ ?_
      rcases updateOrAppend_keys m (dom x).length x with ⟨he, _⟩ | ⟨he, hk⟩
      · rw [he]; exact hm
      · rw [he]
        simp only [List.nodup_append, List.nodup_cons, List.nodup_nil]
        exact ⟨hm, by simp, by simpa using fun h => hk h⟩

/-- A size occurs as a key of the `number_of_options` dict iff some processed
variable has a domain of that size (or it was already a key). -/
theorem numberOfOptions_mem_keys (dom : Dom) :
    ∀ (l : List Var) (m : List (Nat × Var)) (k : Nat),
      (k ∈ (l.foldl (fun m var => updateOrAppend m (dom var).length var) m).map
            (fun p => p.1)
        ↔ k ∈ m.map (fun p => p.1) ∨ ∃ v ∈ l, (dom v).length = k) := by
  intro l
  induction l with
  | nil => intro m k; simp
  | cons x l ih =>
      intro m k
      rw [List.foldl_cons, ih]
      have hkeys :
          (k ∈ (updateOrAppend m (dom x).length x).map (fun p => p.1)
            ↔ k ∈ m.map (fun p => p.1) ∨ k = (dom x).length) := by
        rcases updateOrAppend_keys m (dom x).length x with ⟨he, hin⟩ | ⟨he, _⟩
        · rw [he]
          constructor
          · exact fun h => Or.inl h
          · rintro (h | rfl)
            · exact h
            · exact hin
        · rw [he]; simp [or_comm]
      rw [hkeys]
      constructor
      · rintro ((h | rfl) | ⟨v, hv, hvk⟩)
        · exact Or.inl h
        · exact Or.inr ⟨x, List.mem_cons_self x l, rfl⟩
        · exact Or.inr ⟨v, List.mem_cons_of_mem x hv, hvk⟩
      · rintro (h | ⟨v, hv, hvk⟩)
        · exact Or.inl (Or.inl h)
        · rcases List.mem_cons.mp hv with rfl | hv'
          · exact Or.inl (Or.inr hvk.symm)
          · exact Or.inr ⟨v, hv', hvk⟩

/-- With no assignment, every puzzle variable is unassigned. -/
theorem unassigned_empty (cw : Crossword) :
    cw.vars.filter (fun v => !(akeys ([] : Assign)).contains v) = cw.vars := by
  have : ∀ v : Var, (!(akeys ([] : Assign)).contains v) = true := by
    intro v; rfl
  calc cw.vars.filter (fun v => !(akeys ([] : Assign)).contains v)
      = cw.vars.filter (fun _ => true) := List.filter_congr (fun v _ => this v)
    _ = cw.vars := List.filter_true cw.vars

/-- When some variable's domain is empty and the assignment is empty,
`select_unassigned_variable` picks a variable with an empty domain (the
minimum-remaining-values key is 0, and the distinct dict keys make the
tie list a singleton). -/
theorem select_picks_empty_domain (cw : Crossword) (dom : Dom)
    (hex : ∃ v ∈ cw.vars, dom v = []) :
    ∃ v', select_unassigned_variable cw dom [] = some v' ∧ dom v' = [] := by
  obtain ⟨v0, hv0, hd0⟩ := hex
  have hentry : ∀ p ∈ numberOfOptions dom cw.vars, (dom p.2).length = p.1 :=
    numberOfOptions_entry dom cw.vars [] (by intro p hp; exact absurd hp (List.not_mem_nil p))
  have hmem0 : (0 : Nat) ∈ (numberOfOptions dom cw.vars).map (fun p => p.1) := by
    rw [numberOfOptions, numberOfOptions_mem_keys dom cw.vars [] 0]
    exact Or.inr ⟨v0, hv0, by rw [hd0]; rfl⟩
  have hnd : ((numberOfOptions dom cw.vars).map (fun p => p.1)).Nodup :=
    numberOfOptions_nodup dom cw.vars [] List.nodup_nil
  set m := numberOfOptions dom cw.vars with hm
  set options := sortNat (m.map (fun p => p.1)) with hopt
  have hperm : options.Perm (m.map (fun p => p.1)) := List.perm_insertionSort _ _
  have hmem0' : (0 : Nat) ∈ options := hperm.mem_iff.mpr hmem0
  have hsorted : List.Sorted (· ≤ ·) options := List.sorted_insertionSort _ _
  have hndopt : options.Nodup := hperm.nodup_iff.mpr hnd
  obtain ⟨k0, rest, heq⟩ : ∃ k0 rest, options = k0 :: rest := by
    cases hoc : options with
    | nil => rw [hoc] at hmem0'; exact absurd hmem0' (List.not_mem_nil 0)
    | cons k0 rest => exact ⟨k0, rest, rfl⟩
  have hk0 : k0 = 0 := by
    rw [heq] at hmem0'
    rcases List.mem_cons.mp hmem0' with h | h
    · exact h.symm
    · rw [heq] at hsorted
      exact Nat.le_zero.mp ((List.pairwise_cons.mp hsorted).1 0 h)
  have htied : tiedRest m 0 rest = [] := by
    cases rest with
    | nil => rfl
    | cons k1 rest' =>
        rw [heq, hk0] at hndopt
        have h1 : k1 ≠ 0 := by
          intro hk1
          exact (List.nodup_cons.mp hndopt).1 (by rw [← hk1]; exact List.mem_cons_self k1 rest')
        unfold tiedRest
        rw [if_neg (by simpa using h1)]
  have hfind : ∃ p0, m.find? (fun p => p.1 == 0) = some p0 ∧ p0.1 = 0 ∧ p0 ∈ m := by
    have : (m.find? (fun p => p.1 == 0)).isSome = true := by
      rw [List.find?_isSome]
      obtain ⟨q, hq, hq0⟩ := List.mem_map.mp hmem0
      exact ⟨q, hq, by simpa using hq0⟩
    obtain ⟨p0, hp0⟩ := Option.isSome_iff_exists.mp this
    exact ⟨p0, hp0, by simpa using List.find?_some hp0, List.mem_of_find?_eq_some hp0⟩
  obtain ⟨p0, hfind0, hp01, hp0m⟩ := hfind
  have hget : getVarD m 0 = p0.2 := by
    unfold getVarD
    rw [hfind0]
    rfl
  have hdomp0 : dom p0.2 = [] := by
    have := hentry p0 hp0m
    rw [hp01] at this
    exact List.length_eq_zero.mp this
  refine ⟨p0.2, ?_, hdomp0⟩
  show select_unassigned_variable cw dom [] = some p0.2
  unfold select_unassigned_variable
  dsimp only
  rw [unassigned_empty cw, ← hm, ← hopt, heq, hk0]
  unfold sortedVariables
  dsimp only
  rw [htied, hget]
  rw [if_neg (by simp)]
  rfl

/-- Claim C10: `solve` discards the Boolean returned by `ac3` and calls
`backtrack` unconditionally (visible in the definition of `solve`); still, when
the puzzle has at least one variable and some domain is empty at the moment
`backtrack` is first invoked, `solve` returns the failure result `None`
(`some none` here: the outer `some` records that the ac3 fuel sufficed), because
minimum-remaining-values selection picks an empty-domain variable whose
candidate list is empty. -/
theorem c10_solve_fails_gracefully_on_empty_domain (cw : Crossword) (fuel : Nat)
    (b : Bool) (d2 : Dom) (hne : cw.vars ≠ [])
    (hac : ac3 cw fuel (enforce_node_consistency cw (initDomains cw)) = some (b, d2))
    (hex : ∃ v ∈ cw.vars, d2 v = []) :
    solveResult cw fuel = some none := by
  obtain ⟨fuel', rfl⟩ : ∃ n, fuel = n + 1 := by
    cases fuel with
    | zero => rw [ac3] at hac; exact absurd hac (by simp [ac3Loop])
    | succ n => exact ⟨n, rfl⟩
  unfold solveResult solve
  rw [hac]
  simp only [Option.map_some']
  refine congrArg some ?_
  obtain ⟨v', hsel, hdv⟩ := select_picks_empty_domain cw d2 hex
  simp only [backtrack]
  have hcomp : assignment_complete cw ([] : Assign) = false := by
    unfold assignment_complete
    cases h : cw.vars with
    | nil => exact absurd h hne
    | cons x xs => simp [h]
  rw [hcomp]
  simp only [Bool.false_eq_true, if_false]
  rw [hsel]
  dsimp only
  have hord : order_domain_values cw d2 v' [] = [] := by
    unfold order_domain_values
    dsimp only
    rw [hdv]
    rfl
  rw [hord]
  rfl

/-- Witness for claim C10 at the concrete empty-word-list puzzle `cwE`. -/
theorem c10_solve_fails_gracefully_on_empty_domain_witness :
    cwE.vars ≠ []
    ∧ ac3DomOf cwE 30 (enforce_node_consistency cwE (initDomains cwE)) vA3 = []
    ∧ solveResult cwE 30 = some none := by
  refine ⟨by decide, by decide, ?_⟩
  exact c10_solve_fails_gracefully_on_empty_domain cwE 30 true
    (ac3DomOf cwE 30 (enforce_node_consistency cwE (initDomains cwE)))
    (by decide) rfl ⟨vA3, by decide, by decide⟩

/-- Folding `optMin` yields `none` only if everything (and the seed) is `none`. -/
theorem foldl_optMin_eq_none :
    ∀ (l : List (Option Nat)) (acc : Option Nat),
      l.foldl optMin acc = none → acc = none ∧ ∀ x ∈ l, x = none := by
  intro l
  induction l with
  | nil => intro acc h; exact ⟨h, by simp⟩
  | cons x rest ih =>
      intro acc h
      rw [List.foldl_cons] at h
      obtain ⟨hax, hrest⟩ := ih _ h
      have hx : acc = none ∧ x = none := by
        cases acc with
        | none =>
            cases x with
            | none => exact ⟨rfl, rfl⟩
            | some a => exact absurd hax (by simp [optMin])
        | some a =>
            cases x with
            | none => exact absurd hax (by simp [optMin])
            | some b => exact absurd hax (by simp [optMin])
      refine ⟨hx.1, ?_⟩
      intro y hy
      rcases List.mem_cons.mp hy with rfl | hy'
      · exact hx.2
      · exact hrest y hy'

/-- The result of one `optMin` step is one of its arguments. -/
theorem optMin_eq_some {acc x : Option Nat} {k : Nat} (h : optMin acc x = some k) :
    acc = some k ∨ x = some k := by
  cases acc with
  | none =>
      cases x with
      | none => exact absurd h (by simp [optMin])
      | some b => exact Or.inr (by simpa [optMin] using h)
  | some a =>
      cases x with
      | none => exact Or.inl (by simpa [optMin] using h)
      | some b =>
          simp only [optMin, Option.some.injEq] at h
          rcases Nat.le_total a b with hab | hab
          · exact Or.inl (by rw [Nat.min_eq_left hab] at h; rw [h])
          · exact Or.inr (by rw [Nat.min_eq_right hab] at h; rw [h])

/-- One `optMin` step never increases a `some` left argument. -/
theorem optMin_le_left {j : Nat} (x : Option Nat) :
    ∃ i, optMin (some j) x = some i ∧ i ≤ j := by
  cases x with
  | none => exact ⟨j, rfl, le_refl j⟩
  | some b => exact ⟨min j b, rfl, Nat.min_le_left j b⟩

/-- One `optMin` step never increases a `some` right argument. -/
theorem optMin_le_right (acc : Option Nat) (j : Nat) :
    ∃ i, optMin acc (some j) = some i ∧ i ≤ j := by
  cases acc with
  | none => exact ⟨j, rfl, le_refl j⟩
  | some a => exact ⟨min a j, rfl, Nat.min_le_right a j⟩

/-- Folding `optMin` to `some k` finds `k` in the list (or the seed) and bounds
the seed and every listed number from below by `k`. -/
theorem foldl_optMin_eq_some :
    ∀ (l : List (Option Nat)) (acc : Option Nat) (k : Nat),
      l.foldl optMin acc = some k →
        (acc = some k ∨ some k ∈ l)
        ∧ (∀ j, acc = some j → k ≤ j)
        ∧ (∀ j, some j ∈ l → k ≤ j) := by
  intro l
  induction l with
  | nil =>
      intro acc k h
      rw [List.foldl_nil] at h
      refine ⟨Or.inl h, fun j hj => ?_, fun j hj => absurd hj (List.not_mem_nil _)⟩
      rw [h] at hj
      exact le_of_eq (Option.some.inj hj)
  | cons x rest ih =>
      intro acc k h
      rw [List.foldl_cons] at h
      obtain ⟨hmem, hacc, hrest⟩ := ih _ _ h
      refine ⟨?_, ?_, ?_⟩
      · rcases hmem with hk | hk
        · rcases optMin_eq_some hk with h' | h'
          · exact Or.inl h'
          · exact Or.inr (List.mem_cons.mpr (Or.inl h'.symm))
        · exact Or.inr (List.mem_cons.mpr (Or.inr hk))
      · intro j hj
        obtain ⟨i, hi, hij⟩ := optMin_le_left (j := j) x
        exact le_trans (hacc i (by rw [hj]; exact hi)) hij
      · intro j hj
        rcases List.mem_cons.mp hj with hx | hj'
        · obtain ⟨i, hi, hij⟩ := optMin_le_right acc j
          rw [hx] at hi
          exact le_trans (hacc i hi) hij
        · exact hrest j hj'

/-- A filter splits, up to permutation, into a stronger filter and the
complementary part. -/
theorem filter_split_perm {α : Type} (p q : α → Bool) (hpq : ∀ x, q x = true → p x = true) :
    ∀ l : List α,
      (l.filter p).Perm (l.filter q ++ l.filter (fun x => p x && !q x)) := by
  intro l
  induction l with
  | nil => simp
  | cons x rest ih =>
      by_cases hq : q x = true
      · have hp : p x = true := hpq x hq
        simpa [hp, hq] using ih.cons x
      · have hq' : q x = false := by simpa using hq
        by_cases hp : p x = true
        · have step : (x :: (rest.filter q ++ rest.filter (fun y => p y && !q y))).Perm
              (rest.filter q ++ x :: rest.filter (fun y => p y && !q y)) :=
            List.perm_middle.symm
          simpa [hp, hq'] using (ih.cons x).trans step
        · have hp' : p x = false := by simpa using hp
          simpa [hp', hq'] using ih

/-- The lengths of a filter and its complement sum to the list length. -/
theorem length_filter_add {α : Type} (p : α → Bool) :
    ∀ l : List α, (l.filter p).length + (l.filter (fun x => !p x)).length = l.length := by
  intro l
  induction l with
  | nil => rfl
  | cons x rest ih =>
      by_cases hp : p x = true
      · simp [List.filter_cons, hp]
        omega
      · have hp' : p x = false := by simpa using hp
        simp [List.filter_cons, hp']
        omega

/-- A list on which `f` is constant is sorted by `f`. -/
theorem pairwise_le_const (f : Word → Nat) (k : Nat) :
    ∀ l : List Word, (∀ w ∈ l, f w = k) → l.Pairwise (fun w1 w2 => f w1 ≤ f w2) := by
  intro l
  induction l with
  | nil => intro _; exact List.Pairwise.nil
  | cons x rest ih =>
      intro h
      refine List.pairwise_cons.mpr ⟨?_, ih fun w hw => h w (List.mem_cons_of_mem x hw)⟩
      intro w hw
      rw [h x (List.mem_cons_self x rest), h w (List.mem_cons_of_mem x hw)]

/-- Invariant lemma for the LCV selection loop: starting from pairs whose live
counts are `f` of their word and an accumulator holding exactly the marked
words in ascending `f`-order below all live counts, the loop returns a
permutation of accumulator-plus-live-words, sorted by `f`. -/
theorem lcvLoop_spec (f : Word → Nat) :
    ∀ (fuel : Nat) (pairs : List (Word × Option Nat)) (acc : List Word),
      (∀ p ∈ pairs, p.2 = some (f p.1) ∨ p.2 = none) →
      (pairs.filter (fun p => p.2.isSome)).length ≤ fuel →
      (pairs.filter (fun p => !p.2.isSome)).length = acc.length →
      acc.Pairwise (fun w1 w2 => f w1 ≤ f w2) →
      (∀ w ∈ acc, ∀ p ∈ pairs, ∀ k, p.2 = some k → f w ≤ k) →
      (lcvLoop fuel pairs acc).Perm
          (acc ++ (pairs.filter (fun p => p.2.isSome)).map (fun p => p.1))
      ∧ (lcvLoop fuel pairs acc).Pairwise (fun w1 w2 => f w1 ≤ f w2) := by
  intro fuel
  induction fuel with
  | zero =>
      intro pairs acc h1 hfuel hcount h3 h4
      have hnil : pairs.filter (fun p => p.2.isSome) = [] :=
        List.length_eq_zero.mp (Nat.le_zero.mp hfuel)
      constructor
      · show acc.Perm (acc ++ (pairs.filter (fun p => p.2.isSome)).map (fun p => p.1))
        rw [hnil]
        simp
      · exact h3
  | succ fuel ih =>
      intro pairs acc h1 hfuel hcount h3 h4
      simp only [lcvLoop]
      by_cases hfull : (acc.length == pairs.length) = true
      · rw [if_pos hfull]
        have hlen : acc.length = pairs.length := by simpa using hfull
        have hsum := length_filter_add (fun p : Word × Option Nat => p.2.isSome) pairs
        have hnil : pairs.filter (fun p => p.2.isSome) = [] := by
          refine List.length_eq_zero.mp ?_
          omega
        constructor
        · rw [hnil]; simp
        · exact h3
      · rw [if_neg hfull]
        cases hmc : minCount (pairs.map (fun p => p.2)) with
        | none =>
            exfalso
            have hall := (foldl_optMin_eq_none _ _ hmc).2
            have hselff : pairs.filter (fun p => !p.2.isSome) = pairs :=
              List.filter_eq_self.mpr (fun p hp => by
                have := hall p.2 (List.mem_map.mpr ⟨p, hp, rfl⟩)
                rw [this]
                rfl)
            rw [hselff] at hcount
            exact hfull (by simpa using hcount.symm)
        | some k =>
            obtain ⟨hmem0, _, hkle⟩ := foldl_optMin_eq_some _ _ _ hmc
            have hm_mem : some k ∈ pairs.map (fun p => p.2) := by
              rcases hmem0 with h' | h'
              · exact absurd h' (by simp)
              · exact h'
            obtain ⟨p₀, hp₀, hp₀2⟩ := List.mem_map.mp hm_mem
            -- pointwise descriptions of the marked pair list
            have hg1 : ∀ p : Word × Option Nat,
                ((if p.2 == some k then (p.1, none) else p).2.isSome)
                  = (p.2.isSome && !(p.2 == some k)) := by
              intro p
              by_cases hb : (p.2 == some k) = true
              · rw [if_pos hb, hb]; simp
              · rw [if_neg hb]
                have hb' : (p.2 == some k) = false := by simpa using hb
                rw [hb']
                simp
            have hg2 : ∀ p : Word × Option Nat,
                (!(if p.2 == some k then (p.1, none) else p).2.isSome)
                  = ((p.2 == some k) || !p.2.isSome) := by
              intro p
              rw [hg1 p]
              by_cases hb : (p.2 == some k) = true
              · rw [hb]
                have : p.2.isSome = true := by
                  rw [show p.2 = some k from by simpa using hb]; rfl
                rw [this]
                rfl
              · have hb' : (p.2 == some k) = false := by simpa using hb
                rw [hb']
                cases hs : p.2.isSome <;> rfl
            have hgfst : ∀ p : Word × Option Nat,
                ((if p.2 == some k then (p.1, none) else p).1) = p.1 := by
              intro p
              by_cases hb : (p.2 == some k) = true
              · rw [if_pos hb]
              · rw [if_neg hb]
            -- live entries of the marked list, as a filter over the original
            have e1 : ((pairs.map (fun p => if p.2 == some k then (p.1, none) else p)).filter
                  (fun p => p.2.isSome)).map (fun p => p.1)
                = (pairs.filter (fun p => p.2.isSome && !(p.2 == some k))).map
                    (fun p => p.1) := by
              rw [List.filter_map]
              rw [List.map_map]
              have hc : (pairs.filter
                    ((fun p : Word × Option Nat => p.2.isSome)
                      ∘ (fun p => if p.2 == some k then (p.1, none) else p)))
                  = pairs.filter (fun p => p.2.isSome && !(p.2 == some k)) :=
                List.filter_congr (fun p _ => hg1 p)
              rw [hc]
              exact List.map_congr_left (fun p _ => hgfst p)
            have e2 : ((pairs.map (fun p => if p.2 == some k then (p.1, none) else p)).filter
                  (fun p => !p.2.isSome)).length
                = (pairs.filter (fun p => (p.2 == some k) || !p.2.isSome)).length := by
              rw [List.filter_map]
              rw [List.length_map]
              refine congrArg List.length ?_
              exact List.filter_congr (fun p _ => hg2 p)
            -- permutation splits of the original filters
            have split1 : (pairs.filter (fun p => p.2.isSome)).Perm
                (pairs.filter (fun p => p.2 == some k)
                  ++ pairs.filter (fun p => p.2.isSome && !(p.2 == some k))) :=
              filter_split_perm _ _ (fun p hp => by
                rw [show p.2 = some k from by simpa using hp]; rfl) pairs
            have split2 : (pairs.filter (fun p => (p.2 == some k) || !p.2.isSome)).Perm
                (pairs.filter (fun p => p.2 == some k)
                  ++ pairs.filter (fun p => !p.2.isSome)) := by
              have base := filter_split_perm
                (fun p : Word × Option Nat => (p.2 == some k) || !p.2.isSome)
                (fun p => p.2 == some k)
                (fun p hp => by simp only [Bool.or_eq_true]; exact Or.inl hp) pairs
              have hc : pairs.filter
                    (fun p => ((p.2 == some k) || !p.2.isSome) && !(p.2 == some k))
                  = pairs.filter (fun p => !p.2.isSome) :=
                List.filter_congr (fun p _ => by
                  by_cases hb : (p.2 == some k) = true
                  · have : p.2.isSome = true := by
                      rw [show p.2 = some k from by simpa using hb]; rfl
                    rw [hb, this]
                    rfl
                  · have hb' : (p.2 == some k) = false := by simpa using hb
                    rw [hb']
                    cases hs : p.2.isSome <;> rfl)
              rw [hc] at base
              exact base
            have hbatch1 : 1 ≤ (pairs.filter (fun p => p.2 == some k)).length := by
              have : p₀ ∈ pairs.filter (fun p => p.2 == some k) :=
                List.mem_filter.mpr ⟨hp₀, by simp [hp₀2]⟩
              exact List.length_pos.mpr (List.ne_nil_of_mem this)
            have hf_batch : ∀ w ∈ (pairs.filter (fun p => p.2 == some k)).map
                (fun p => p.1), f w = k := by
              intro w hw
              obtain ⟨p, hpf, rfl⟩ := List.mem_map.mp hw
              obtain ⟨hp, hpk⟩ := List.mem_filter.mp hpf
              have hpk' : p.2 = some k := by simpa using hpk
              rcases h1 p hp with h' | h'
              · rw [h'] at hpk'
                exact Option.some.inj hpk'
              · rw [h'] at hpk'
                exact absurd hpk' (by simp)
            -- invariants for the recursive call
            have H1' : ∀ p ∈ pairs.map (fun p => if p.2 == some k then (p.1, none) else p),
                p.2 = some (f p.1) ∨ p.2 = none := by
              intro p' hp'
              obtain ⟨p, hp, rfl⟩ := List.mem_map.mp hp'
              by_cases hb : (p.2 == some k) = true
              · rw [if_pos hb]; exact Or.inr rfl
              · rw [if_neg hb]; exact h1 p hp
            have Hfuel' : ((pairs.map (fun p => if p.2 == some k then (p.1, none) else p)).filter
                (fun p => p.2.isSome)).length ≤ fuel := by
              have hl1 : ((pairs.map (fun p => if p.2 == some k then (p.1, none) else p)).filter
                  (fun p => p.2.isSome)).length
                  = (pairs.filter (fun p => p.2.isSome && !(p.2 == some k))).length := by
                have := congrArg List.length e1
                rwa [List.length_map, List.length_map] at this
              have hl2 := split1.length_eq
              rw [List.length_append] at hl2
              omega
            have Hcount' : ((pairs.map (fun p => if p.2 == some k then (p.1, none) else p)).filter
                (fun p => !p.2.isSome)).length
                = (acc ++ (pairs.filter (fun p => p.2 == some k)).map (fun p => p.1)).length := by
              have hl2 := split2.length_eq
              rw [List.length_append] at hl2
              rw [e2, List.length_append, List.length_map]
              omega
            have H3' : (acc ++ (pairs.filter (fun p => p.2 == some k)).map
                (fun p => p.1)).Pairwise (fun w1 w2 => f w1 ≤ f w2) := by
              rw [List.pairwise_append]
              refine ⟨h3, pairwise_le_const f k _ hf_batch, ?_⟩
              intro w1 hw1 w2 hw2
              rw [hf_batch w2 hw2]
              exact h4 w1 hw1 p₀ hp₀ k hp₀2
            have H4' : ∀ w ∈ acc ++ (pairs.filter (fun p => p.2 == some k)).map
                  (fun p => p.1),
                ∀ p ∈ pairs.map (fun p => if p.2 == some k then (p.1, none) else p),
                ∀ j, p.2 = some j → f w ≤ j := by
              intro w hw p' hp' j hj
              obtain ⟨p, hp, rfl⟩ := List.mem_map.mp hp'
              by_cases hb : (p.2 == some k) = true
              · rw [if_pos hb] at hj
                exact absurd hj (by simp)
              · rw [if_neg hb] at hj
                rcases List.mem_append.mp hw with hw1 | hw2
                · exact h4 w hw1 p hp j hj
                · rw [hf_batch w hw2]
                  exact hkle j (List.mem_map.mpr ⟨p, hp, by rw [hj]⟩)
            obtain ⟨permIH, pwIH⟩ := ih _ _ H1' Hfuel' Hcount' H3' H4'
            refine ⟨?_, pwIH⟩
            refine permIH.trans ?_
            rw [e1, List.append_assoc]
            refine List.Perm.append_left acc ?_
            have hX : ((pairs.filter (fun p => p.2.isSome)).map (fun p => p.1)).Perm
                ((pairs.filter (fun p => p.2 == some k)).map (fun p => p.1)
                  ++ (pairs.filter (fun p => p.2.isSome && !(p.2 == some k))).map
                      (fun p => p.1)) := by
              have := split1.map (fun p : Word × Option Nat => p.1)
              rwa [List.map_append] at this
            exact hX.symm



/-- The accumulator loop of `elimCount` is the sum of per-neighbor
contributions. -/
theorem elimCount_foldl (cw : Crossword) (dom : Dom) (var : Var) (val : Word) :
    ∀ (nbs : List Var) (c : Nat),
      nbs.foldl
        (fun n nb =>
          let n1 := if val ∈ dom nb then n + 1 else n
          match cw.overlaps var nb with
          | some o =>
              n1 + ((dom nb).filter
                (fun v1 => !(v1 == val) && !(pyIdx val o.1 == pyIdx v1 o.2))).length
          | none => n1) c
      = c + (nbs.map (fun nb =>
          (if val ∈ dom nb then 1 else 0)
          + match cw.overlaps var nb with
            | some o =>
                ((dom nb).filter
                  (fun v1 => !(v1 == val) && !(pyIdx val o.1 == pyIdx v1 o.2))).length
            | none => 0)).sum := by
  intro nbs
  induction nbs with
  | nil => intro c; simp
  | cons nb nbs ih =>
      intro c
      rw [List.foldl_cons, List.map_cons, List.sum_cons, ih]
      dsimp only
      cases ho : cw.overlaps var nb with
      | none =>
          simp only [ho]
          by_cases hm : val ∈ dom nb
          · rw [if_pos hm, if_pos hm]; ring
          · rw [if_neg hm, if_neg hm]; ring
      | some o =>
          simp only [ho]
          by_cases hm : val ∈ dom nb
          · rw [if_pos hm, if_pos hm]; ring
          · rw [if_neg hm, if_neg hm]; ring

/-- Splitting the elimination filter: on a duplicate-free list, counting the
values equal to `val` or satisfying `c` equals one for `val` (when present)
plus the count of other values satisfying `c`. -/
theorem count_elim_split (val : Word) (c : Word → Bool) :
    ∀ l : List Word, l.Nodup →
      (l.filter (fun v1 => (v1 == val) || c v1)).length
        = (if val ∈ l then 1 else 0)
          + (l.filter (fun v1 => !(v1 == val) && c v1)).length := by
  intro l
  induction l with
  | nil => intro _; simp
  | cons x rest ih =>
      intro hnd
      obtain ⟨hx_rest, hnd'⟩ := List.nodup_cons.mp hnd
      by_cases hx : x = val
      · subst hx
        have hco : rest.filter (fun v1 => (v1 == x) || c v1)
            = rest.filter (fun v1 => !(v1 == x) && c v1) := by
          refine List.filter_congr ?_
          intro v1 hv1
          have hne : (v1 == x) = false := by
            simp only [beq_eq_false_iff_ne]
            intro h
            exact hx_rest (h ▸ hv1)
          rw [hne]
          rfl
        rw [if_pos (List.mem_cons_self x rest)]
        simp only [List.filter_cons]
        rw [hco]
        simp
        omega
      · have hbx : (x == val) = false := by simpa using hx
        have hmem : (val ∈ x :: rest) ↔ (val ∈ rest) := by
          constructor
          · intro h
            rcases List.mem_cons.mp h with h' | h'
            · exact absurd h'.symm hx
            · exact h'
          · exact fun h => List.mem_cons_of_mem x h
        simp only [List.filter_cons, hbx, Bool.false_or, Bool.not_false, Bool.true_and]
        by_cases hcx : c x = true
        · rw [if_pos hcx, if_pos hcx, List.length_cons, List.length_cons, ih hnd']
          by_cases hv : val ∈ rest
          · rw [if_pos hv, if_pos (hmem.mpr hv)]
            omega
          · rw [if_neg hv, if_neg (fun h => hv (hmem.mp h))]
            omega
        · rw [if_neg hcx, if_neg hcx, ih hnd']
          by_cases hv : val ∈ rest
          · rw [if_pos hv, if_pos (hmem.mpr hv)]
          · rw [if_neg hv, if_neg (fun h => hv (hmem.mp h))]

/-- Unassigned neighbors are puzzle variables. -/
theorem unassignedNeighbors_mem_vars {cw : Crossword} {a : Assign} {var nb : Var}
    (h : nb ∈ unassignedNeighbors cw a var) : nb ∈ cw.vars :=
  (List.mem_filter.mp (List.mem_filter.mp h).1).1

/-- Under overlap symmetry, every neighbor of a puzzle variable has an overlap
entry in the orientation `(var, neighbor)` used by the value-ordering code. -/
theorem neighbors_overlap_isSome (cw : Crossword) (hWF : SymmOn cw) (var : Var)
    (hvar : var ∈ cw.vars) :
    ∀ nb ∈ cw.neighbors var, (cw.overlaps var nb).isSome = true := by
  intro nb hnb
  obtain ⟨hnbv, hcond⟩ := List.mem_filter.mp hnb
  simp only [Bool.and_eq_true] at hcond
  obtain ⟨o, ho⟩ := Option.isSome_iff_exists.mp hcond.2
  obtain ⟨o1, o2⟩ := o
  rw [hWF.apply hnbv hvar ho]
  rfl

/-- The code's elimination counter agrees with the specification's elimination
count on duplicate-free domains of a symmetric puzzle. -/
theorem elimCount_eq_claim (cw : Crossword) (dom : Dom) (a : Assign) (var : Var) (val : Word)
    (hov : ∀ nb ∈ unassignedNeighbors cw a var, (cw.overlaps var nb).isSome = true)
    (hnd : ∀ v ∈ cw.vars, (dom v).Nodup) :
    elimCount cw dom a var val = claimElimCount cw dom a var val := by
  unfold elimCount claimElimCount
  rw [elimCount_foldl, Nat.zero_add]
  refine congrArg List.sum (List.map_congr_left ?_)
  intro nb hnb
  obtain ⟨o, ho⟩ := Option.isSome_iff_exists.mp (hov nb hnb)
  rw [ho]
  simp only [claimEliminated]
  rw [count_elim_split val (fun v1 => !(pyIdx val o.1 == pyIdx v1 o.2)) (dom nb)
    (hnd nb (unassignedNeighbors_mem_vars hnb))]


/-- Claim C7: for every variable and partial assignment (on a symmetric puzzle
with duplicate-free domains), `order_domain_values` returns a permutation of the
variable's domain — each candidate exactly once — in ascending order of the
number of values the candidate would eliminate from the domains of the
unassigned neighboring variables. -/
theorem c7_order_domain_values_lcv (cw : Crossword) (dom : Dom) (a : Assign) (var : Var)
    (hWF : SymmOn cw) (hvar : var ∈ cw.vars) (hnd : ∀ v ∈ cw.vars, (dom v).Nodup) :
    (order_domain_values cw dom var a).Perm (dom var)
    ∧ (order_domain_values cw dom var a).Pairwise
        (fun w1 w2 => claimElimCount cw dom a var w1 ≤ claimElimCount cw dom a var w2) := by
  have hov : ∀ nb ∈ unassignedNeighbors cw a var, (cw.overlaps var nb).isSome = true := by
    intro nb hnb
    exact neighbors_overlap_isSome cw hWF var hvar nb (List.mem_filter.mp hnb).1
  have heq : ∀ val, elimCount cw dom a var val = claimElimCount cw dom a var val :=
    fun val => elimCount_eq_claim cw dom a var val hov hnd
  have h1 : ∀ p ∈ (dom var).map (fun v => (v, some (elimCount cw dom a var v))),
      p.2 = some (elimCount cw dom a var p.1) ∨ p.2 = none := by
    intro p hp
    obtain ⟨v, hv, rfl⟩ := List.mem_map.mp hp
    exact Or.inl rfl
  have hfe : ((dom var).map (fun v => (v, some (elimCount cw dom a var v)))).filter
        (fun p => p.2.isSome)
      = (dom var).map (fun v => (v, some (elimCount cw dom a var v))) := by
    refine List.filter_eq_self.mpr ?_
    intro p hp
    obtain ⟨v, hv, rfl⟩ := List.mem_map.mp hp
    rfl
  have hfuel : (((dom var).map (fun v => (v, some (elimCount cw dom a var v)))).filter
      (fun p => p.2.isSome)).length ≤ (dom var).length := by
    rw [hfe, List.length_map]
  have hcount : (((dom var).map (fun v => (v, some (elimCount cw dom a var v)))).filter
      (fun p => !p.2.isSome)).length = ([] : List Word).length := by
    have hnil : ((dom var).map (fun v => (v, some (elimCount cw dom a var v)))).filter
        (fun p => !p.2.isSome) = [] := by
      refine List.filter_eq_nil_iff.mpr ?_
      intro p hp
      obtain ⟨v, hv, rfl⟩ := List.mem_map.mp hp
      simp
    rw [hnil]
    rfl
  obtain ⟨hperm, hpw⟩ := lcvLoop_spec (elimCount cw dom a var) (dom var).length
    ((dom var).map (fun v => (v, some (elimCount cw dom a var v)))) [] h1 hfuel hcount
    List.Pairwise.nil (fun w hw => absurd hw (List.not_mem_nil w))
  have hmapfst : (((dom var).map (fun v => (v, some (elimCount cw dom a var v)))).filter
      (fun p => p.2.isSome)).map (fun p => p.1) = dom var := by
    rw [hfe, List.map_map]
    exact List.map_id (dom var)
  rw [hmapfst, List.nil_append] at hperm
  constructor
  · show (order_domain_values cw dom var a).Perm (dom var)
    unfold order_domain_values
    dsimp only
    exact hperm
  · show (order_domain_values cw dom var a).Pairwise
      (fun w1 w2 => claimElimCount cw dom a var w1 ≤ claimElimCount cw dom a var w2)
    unfold order_domain_values
    dsimp only
    refine hpw.imp ?_
    intro w1 w2 h
    rw [← heq w1, ← heq w2]
    exact h

/-- Witness for claim C7 at the concrete puzzle `cwS`, variable `vA3` and the
empty assignment. -/
theorem c7_order_domain_values_lcv_witness :
    SymmOn cwS ∧ vA3 ∈ cwS.vars
    ∧ (∀ v ∈ cwS.vars, ((enforce_node_consistency cwS (initDomains cwS)) v).Nodup)
    ∧ ((order_domain_values cwS (enforce_node_consistency cwS (initDomains cwS)) vA3 []).Perm
          (enforce_node_consistency cwS (initDomains cwS) vA3)
        ∧ (order_domain_values cwS (enforce_node_consistency cwS (initDomains cwS)) vA3
            []).Pairwise
            (fun w1 w2 =>
              claimElimCount cwS (enforce_node_consistency cwS (initDomains cwS)) [] vA3 w1
                ≤ claimElimCount cwS (enforce_node_consistency cwS (initDomains cwS)) []
                    vA3 w2)) := by
  refine ⟨by decide, by decide, by decide, ?_⟩
  exact c7_order_domain_values_lcv cwS (enforce_node_consistency cwS (initDomains cwS)) []
    vA3 (by decide) (by decide) (by decide)


/-- A revision that removes nothing leaves the domain store unchanged. -/
theorem revise_false_eq {cw : Crossword} {dom : Dom} {x y : Var}
    (h : (revise cw dom x y).1 = false) : (revise cw dom x y).2 = dom := by
  unfold revise at h ⊢
  cases ho : cw.overlaps x y with
  | none => rfl
  | some o =>
      rw [ho] at h
      dsimp only at h ⊢
      funext v
      by_cases hv : v = x
      · subst hv
        rw [if_pos rfl]
        refine List.filter_eq_self.mpr ?_
        intro w hw
        by_contra hns
        have : (dom v).any (fun w1 => !supported o (dom y) w1) = true :=
          List.any_eq_true.mpr ⟨w, hw, by
            cases hs : supported o (dom y) w
            · rfl
            · exact absurd hs hns⟩
        rw [this] at h
        exact Bool.noConfusion h
      · rw [if_neg hv]

/-- A revision with no overlap entry removes nothing. -/
theorem revise_none_false {cw : Crossword} {dom : Dom} {x y : Var}
    (ho : cw.overlaps x y = none) : (revise cw dom x y).1 = false := by
  unfold revise
  rw [ho]

/-- After a revision over an overlap entry, the revised pair is supported. -/
theorem revise_supported {cw : Crossword} {dom : Dom} {x y : Var} (hxy : y ≠ x) :
    SupportedArc cw (revise cw dom x y).2 x y := by
  intro o1 o2 ho w hw
  unfold revise at hw ⊢
  rw [ho] at hw ⊢
  dsimp only at hw ⊢
  rw [if_pos rfl] at hw
  obtain ⟨hwx, hws⟩ := List.mem_filter.mp hw
  obtain ⟨w2, hw2, hagree⟩ := List.any_eq_true.mp hws
  refine ⟨w2, ?_, by simpa using hagree⟩
  rw [if_neg hxy]
  exact hw2

/-- The domain of any variable other than the revised one is untouched. -/
theorem revise_apply_ne {cw : Crossword} {dom : Dom} {x y v : Var} (hv : v ≠ x) :
    (revise cw dom x y).2 v = dom v := by
  unfold revise
  cases ho : cw.overlaps x y with
  | none => rfl
  | some o =>
      dsimp only
      rw [if_neg hv]

/-- The revised domain is the filter by support over the overlap entry. -/
theorem revise_apply_some {cw : Crossword} {dom : Dom} {x y : Var} {o : Nat × Nat}
    (ho : cw.overlaps x y = some o) :
    (revise cw dom x y).2 x = (dom x).filter (supported o (dom y)) := by
  unfold revise
  rw [ho]
  dsimp only
  rw [if_pos rfl]

/-- Unfolding a successful support test. -/
theorem supported_exists {o : Nat × Nat} {domY : List Word} {w : Word}
    (h : supported o domY w = true) : ∃ w2 ∈ domY, pyIdx w o.1 = pyIdx w2 o.2 := by
  obtain ⟨w2, hw2, hb⟩ := List.any_eq_true.mp h
  exact ⟨w2, hw2, by simpa using hb⟩

/-- A revision that removes nothing means the arc was already supported. -/
theorem revise_false_supported {cw : Crossword} {dom : Dom} {x y : Var}
    (h : (revise cw dom x y).1 = false) : SupportedArc cw dom x y := by
  intro o1 o2 ho w hw
  unfold revise at h
  rw [ho] at h
  dsimp only at h
  have hall := List.any_eq_false.mp h w hw
  have hsup : supported (o1, o2) (dom y) w = true := by
    cases hs : supported (o1, o2) (dom y) w
    · rw [hs] at hall; exact absurd rfl hall
    · rfl
  exact supported_exists hsup

/-- Monotonicity of the inner queue-building fold. -/
theorem innerFold_mono (var : Var) (p : Var × Var) :
    ∀ (nbs : List Var) (q : List (Var × Var)), p ∈ q →
      p ∈ nbs.foldl (fun q' nb => if (var, nb) ∈ q' then q' else q' ++ [(var, nb)]) q := by
  intro nbs
  induction nbs with
  | nil => intro q hq; exact hq
  | cons nb nbs ih =>
      intro q hq
      refine ih _ ?_
      dsimp only
      by_cases hin : (var, nb) ∈ q
      · rw [if_pos hin]; exact hq
      · rw [if_neg hin]; exact List.mem_append_left _ hq

/-- The inner queue-building fold enqueues every listed neighbor. -/
theorem innerFold_mem (var : Var) :
    ∀ (nbs : List Var) (q : List (Var × Var)) (nb : Var), nb ∈ nbs →
      (var, nb) ∈ nbs.foldl (fun q' nb => if (var, nb) ∈ q' then q' else q' ++ [(var, nb)]) q := by
  intro nbs
  induction nbs with
  | nil => intro q nb h; exact absurd h (List.not_mem_nil nb)
  | cons nb0 nbs ih =>
      intro q nb h
      rcases List.mem_cons.mp h with rfl | h'
      · refine innerFold_mono var (var, nb) nbs _ ?_
        dsimp only
        by_cases hin : (var, nb) ∈ q
        · rw [if_pos hin]; exact hin
        · rw [if_neg hin]; exact List.mem_append_right _ (List.mem_singleton.mpr rfl)
      · exact ih _ nb h'

/-- Monotonicity of the outer queue-building fold. -/
theorem outerFold_mono (cw : Crossword) (p : Var × Var) :
    ∀ (l : List Var) (q : List (Var × Var)), p ∈ q →
      p ∈ l.foldl (fun q var => (cw.neighbors var).foldl
        (fun q' nb => if (var, nb) ∈ q' then q' else q' ++ [(var, nb)]) q) q := by
  intro l
  induction l with
  | nil => intro q hq; exact hq
  | cons v l ih => intro q hq; exact ih _ (innerFold_mono v p _ _ hq)

/-- The outer queue-building fold enqueues every neighbor arc of every listed
variable. -/
theorem outerFold_mem (cw : Crossword) :
    ∀ (l : List Var) (q : List (Var × Var)) (x y : Var), x ∈ l → y ∈ cw.neighbors x →
      (x, y) ∈ l.foldl (fun q var => (cw.neighbors var).foldl
        (fun q' nb => if (var, nb) ∈ q' then q' else q' ++ [(var, nb)]) q) q := by
  intro l
  induction l with
  | nil => intro q x y hx _; exact absurd hx (List.not_mem_nil x)
  | cons v l ih =>
      intro q x y hx hy
      rcases List.mem_cons.mp hx with rfl | hx'
      · exact outerFold_mono cw (x, y) l _ (innerFold_mem x _ _ y hy)
      · exact ih _ x y hx' hy

/-- Every arc between a puzzle variable and one of its neighbors is in the
default arc list. -/
theorem initialQueue_mem (cw : Crossword) {x y : Var} (hx : x ∈ cw.vars)
    (hy : y ∈ cw.neighbors x) : (x, y) ∈ initialQueue cw :=
  outerFold_mem cw cw.vars [] x y hx hy

/-- Entries preserved by the inner queue-building fold. -/
theorem innerFold_all (var : Var) (P : Var × Var → Prop) :
    ∀ (nbs : List Var) (q : List (Var × Var)), (∀ p ∈ q, P p) →
      (∀ nb ∈ nbs, P (var, nb)) →
      ∀ p ∈ nbs.foldl (fun q' nb => if (var, nb) ∈ q' then q' else q' ++ [(var, nb)]) q, P p := by
  intro nbs
  induction nbs with
  | nil => intro q hq _ p hp; exact hq p hp
  | cons nb nbs ih =>
      intro q hq hnb p hp
      refine ih _ ?_ (fun nb' h => hnb nb' (List.mem_cons_of_mem nb h)) p hp
      intro p' hp'
      dsimp only at hp'
      by_cases hin : (var, nb) ∈ q
      · rw [if_pos hin] at hp'; exact hq p' hp'
      · rw [if_neg hin] at hp'
        rcases List.mem_append.mp hp' with h | h
        · exact hq p' h
        · rw [List.mem_singleton.mp h]; exact hnb nb (List.mem_cons_self nb nbs)

/-- Entries preserved by the outer queue-building fold. -/
theorem outerFold_all (cw : Crossword) (P : Var × Var → Prop) :
    ∀ (l : List Var) (q : List (Var × Var)), (∀ p ∈ q, P p) →
      (∀ v ∈ l, ∀ nb ∈ cw.neighbors v, P (v, nb)) →
      ∀ p ∈ l.foldl (fun q var => (cw.neighbors var).foldl
        (fun q' nb => if (var, nb) ∈ q' then q' else q' ++ [(var, nb)]) q) q, P p := by
  intro l
  induction l with
  | nil => intro q hq _ p hp; exact hq p hp
  | cons v l ih =>
      intro q hq hvl p hp
      refine ih _ ?_ (fun v' hv' => hvl v' (List.mem_cons_of_mem v hv')) p hp
      exact innerFold_all v P _ q hq (hvl v (List.mem_cons_self v l))

/-- The default arc list is well-formed. -/
theorem initialQueue_wf (cw : Crossword) : QueueWF cw (initialQueue cw) := by
  intro p hp
  refine outerFold_all cw (fun p => p.1 ∈ cw.vars ∧ p.2 ∈ cw.vars ∧ p.1 ≠ p.2)
    cw.vars [] (fun p h => absurd h (List.not_mem_nil p)) ?_ p hp
  intro v hv nb hnb
  obtain ⟨hnbv, hcond⟩ := List.mem_filter.mp hnb
  simp only [Bool.and_eq_true] at hcond
  have hne : nb ≠ v := by simpa using hcond.1
  exact ⟨hv, hnbv, fun h => hne h.symm⟩

/-- The AC-3 worklist loop establishes full arc support on success: if every
overlapping pair is queued or supported at entry, a run returning `true` leaves
every overlapping pair of distinct puzzle variables supported. -/
theorem ac3Loop_post (cw : Crossword) (hWF : SymmOn cw) :
    ∀ (fuel : Nat) (q : List (Var × Var)) (dom dom' : Dom),
      QueueWF cw q → ArcInv cw q dom →
      ac3Loop cw fuel q dom = some (true, dom') →
      ∀ x ∈ cw.vars, ∀ y ∈ cw.vars, x ≠ y → (cw.overlaps x y).isSome = true →
        SupportedArc cw dom' x y := by
  intro fuel
  induction fuel with
  | zero =>
      intro q dom dom' _ _ h
      exact absurd h (by simp [ac3Loop])
  | succ fuel ih =>
      intro q dom dom' hQ hInv hrun
      cases q with
      | nil =>
          simp only [ac3Loop] at hrun
          have hd : dom = dom' := congrArg Prod.snd (Option.some.inj hrun)
          intro x hx y hy hne hov
          rw [← hd]
          rcases hInv x hx y hy hne hov with hq | hs
          · exact absurd hq (List.not_mem_nil _)
          · exact hs
      | cons p rest =>
          obtain ⟨x0, y0⟩ := p
          obtain ⟨hx0, hy0, hxy0⟩ := hQ (x0, y0) (List.mem_cons_self _ _)
          simp only [ac3Loop] at hrun
          by_cases hr : (revise cw dom x0 y0).1 = true
          · rw [if_pos hr] at hrun
            by_cases hlen0 : ((((revise cw dom x0 y0).2 x0).length == 0) = true)
            · rw [if_pos hlen0] at hrun
              have := congrArg Prod.fst (Option.some.inj hrun)
              exact absurd this (by simp)
            · rw [if_neg hlen0] at hrun
              have ho : ∃ o, cw.overlaps x0 y0 = some o := by
                cases hoc : cw.overlaps x0 y0 with
                | none =>
                    refine absurd hr ?_
                    rw [revise_none_false hoc]
                    simp
                | some o => exact ⟨o, rfl⟩
              obtain ⟨⟨o1, o2⟩, ho⟩ := ho
              have hQ' : QueueWF cw (rest ++
                  ((cw.neighbors x0).filter (fun z => z != y0)).map (fun z => (z, x0))) := by
                intro p hp
                rcases List.mem_append.mp hp with h | h
                · exact hQ p (List.mem_cons_of_mem _ h)
                · obtain ⟨z, hz, rfl⟩ := List.mem_map.mp h
                  obtain ⟨hz1, _⟩ := List.mem_filter.mp hz
                  obtain ⟨hzv, hzc⟩ := List.mem_filter.mp hz1
                  simp only [Bool.and_eq_true] at hzc
                  exact ⟨hzv, hx0, by simpa using hzc.1⟩
              have hInv' : ArcInv cw (rest ++
                  ((cw.neighbors x0).filter (fun z => z != y0)).map (fun z => (z, x0)))
                  (revise cw dom x0 y0).2 := by
                intro a ha b hb hab hovab
                rcases hInv a ha b hb hab hovab with hq | hs
                · rcases List.mem_cons.mp hq with heq | hrest
                  · obtain ⟨rfl, rfl⟩ : a = x0 ∧ b = y0 :=
                      ⟨congrArg Prod.fst heq, congrArg Prod.snd heq⟩
                    exact Or.inr (revise_supported (fun h => hxy0 h.symm))
                  · exact Or.inl (List.mem_append_left _ hrest)
                · by_cases hbx : b = x0
                  · by_cases hay : a = y0
                    · refine Or.inr ?_
                      intro p1 p2 hoba w hw
                      have hsym := hWF.apply hx0 hy0 ho
                      rw [hay, hbx] at hoba
                      rw [hoba] at hsym
                      have hp1 : p1 = o2 := congrArg Prod.fst (Option.some.inj hsym)
                      have hp2 : p2 = o1 := congrArg Prod.snd (Option.some.inj hsym)
                      have hne : a ≠ x0 := by
                        rw [hay]
                        exact fun h => hxy0 h.symm
                      have hwa : w ∈ dom a := by
                        rw [revise_apply_ne hne] at hw
                        exact hw
                      obtain ⟨w2, hw2x, hagree⟩ := hs p1 p2 (by rw [hay, hbx]; exact hoba) w hwa
                      refine ⟨w2, ?_, hagree⟩
                      rw [hbx, revise_apply_some ho]
                      refine List.mem_filter.mpr ⟨by rw [← hbx]; exact hw2x, ?_⟩
                      refine List.any_eq_true.mpr ⟨w, by rw [← hay]; exact hwa, ?_⟩
                      have hag2 : pyIdx w2 o1 = pyIdx w o2 := by
                        rw [← hp1, ← hp2]
                        exact hagree.symm
                      simpa using hag2
                    · refine Or.inl (List.mem_append_right _ ?_)
                      refine List.mem_map.mpr ⟨a, ?_, by rw [hbx]⟩
                      refine List.mem_filter.mpr ⟨?_, by simpa using hay⟩
                      refine List.mem_filter.mpr ⟨ha, ?_⟩
                      simp only [Bool.and_eq_true]
                      refine ⟨by simpa using (show a ≠ x0 from fun h => hab (h.trans hbx.symm)), ?_⟩
                      rw [← hbx]
                      exact hovab
                  · by_cases hax : a = x0
                    · refine Or.inr ?_
                      intro p1 p2 hoab w hw
                      rw [hax, revise_apply_some ho] at hw
                      have hw' : w ∈ dom a := by
                        rw [hax]
                        exact (List.mem_filter.mp hw).1
                      obtain ⟨w2, hw2, hag⟩ := hs p1 p2 hoab w hw'
                      refine ⟨w2, ?_, hag⟩
                      rw [revise_apply_ne hbx]
                      exact hw2
                    · refine Or.inr ?_
                      intro p1 p2 hoab w hw
                      rw [revise_apply_ne hax] at hw
                      obtain ⟨w2, hw2, hag⟩ := hs p1 p2 hoab w hw
                      refine ⟨w2, ?_, hag⟩
                      rw [revise_apply_ne hbx]
                      exact hw2
              exact ih _ _ dom' hQ' hInv' hrun
          · rw [if_neg hr] at hrun
            have hrf : (revise cw dom x0 y0).1 = false := Bool.eq_false_iff.mpr hr
            rw [revise_false_eq hrf] at hrun
            have hQ'' : QueueWF cw rest := fun p hp => hQ p (List.mem_cons_of_mem _ hp)
            have hInv'' : ArcInv cw rest dom := by
              intro a ha b hb hab hovab
              rcases hInv a ha b hb hab hovab with hq | hs
              · rcases List.mem_cons.mp hq with heq | hrest
                · obtain ⟨rfl, rfl⟩ : a = x0 ∧ b = y0 :=
                    ⟨congrArg Prod.fst heq, congrArg Prod.snd heq⟩
                  exact Or.inr (revise_false_supported hrf)
                · exact Or.inl hrest
              · exact Or.inr hs
            exact ih _ _ dom' hQ'' hInv'' hrun

/-- Claim C6: whenever `ac3` with the default arc list returns success on an
overlap-symmetric puzzle, every ordered pair of distinct variables with an
overlap entry is arc-consistent — each remaining word of the first variable has
a partner in the second variable's domain agreeing at the overlap offsets. -/
theorem c6_ac3_arc_consistency (cw : Crossword) (fuel : Nat) (dom dom' : Dom)
    (hWF : SymmOn cw) (h : ac3 cw fuel dom = some (true, dom')) :
    ∀ x ∈ cw.vars, ∀ y ∈ cw.vars, x ≠ y → ∀ o1 o2 : Nat,
      cw.overlaps x y = some (o1, o2) →
      ∀ w ∈ dom' x, ∃ w2 ∈ dom' y, pyIdx w o1 = pyIdx w2 o2 := by
  intro x hx y hy hne o1 o2 ho w hw
  have hInv0 : ArcInv cw (initialQueue cw) dom := by
    intro a ha b hb hab hovab
    obtain ⟨⟨q1, q2⟩, hoq⟩ := Option.isSome_iff_exists.mp hovab
    refine Or.inl (initialQueue_mem cw ha ?_)
    refine List.mem_filter.mpr ⟨hb, ?_⟩
    simp only [Bool.and_eq_true]
    refine ⟨by simpa using fun h' => hab h'.symm, ?_⟩
    rw [hWF.apply ha hb hoq]
    rfl
  have hpost := ac3Loop_post cw hWF fuel (initialQueue cw) dom dom'
    (initialQueue_wf cw) hInv0 h x hx y hy hne (by rw [ho]; rfl)
  exact hpost o1 o2 ho w hw

/-- Witness for claim C6 at the concrete puzzle `cwT` after node consistency:
its `ac3` run succeeds and the pair `(vA3, vB3)` with overlap offsets `(2, 0)`
is arc-consistent for the word "aab". -/
theorem c6_ac3_arc_consistency_witness :
    SymmOn cwT
    ∧ ac3 cwT 30 (enforce_node_consistency cwT (initDomains cwT))
        = some (true, ac3DomOf cwT 30 (enforce_node_consistency cwT (initDomains cwT)))
    ∧ vA3 ∈ cwT.vars ∧ vB3 ∈ cwT.vars ∧ vA3 ≠ vB3
    ∧ cwT.overlaps vA3 vB3 = some (2, 0)
    ∧ wAAB ∈ ac3DomOf cwT 30 (enforce_node_consistency cwT (initDomains cwT)) vA3
    ∧ ∃ w2 ∈ ac3DomOf cwT 30 (enforce_node_consistency cwT (initDomains cwT)) vB3,
        pyIdx wAAB 2 = pyIdx w2 0 := by
  refine ⟨by decide, rfl, by decide, by decide, by decide, by decide, by decide, ?_⟩
  exact c6_ac3_arc_consistency cwT 30 (enforce_node_consistency cwT (initDomains cwT))
    (ac3DomOf cwT 30 (enforce_node_consistency cwT (initDomains cwT))) (by decide) rfl
    vA3 (by decide) vB3 (by decide) (by decide) 2 0 (by decide) wAAB (by decide)
